import Mathlib

/-!
# Verification of the cellular-automata simulation system

A shallow embedding of the repository's core logic:

* `next_generation` (src/api_service.py, lines 36-61): the generation stepper.
  Boards are square lists of lists of integers (`np.ndarray` of dtype int,
  indexed `[row][col]`); the imperative double loop writing into a fresh
  `np.zeros` board is embedded as a fold over a two-field state
  (`board`, `new_board`), where each iteration reads the `board` field and
  writes one cell of `new_board` — exactly mirroring the Python loop.
  The numpy slice `board[max(0, i-1):i+2, max(0, j-1):j+2]` is embedded as
  `drop`/`take` on the row list and on each row (numpy clamps the upper
  bound of a slice to the array length, which is what `List.take` does;
  the lower bound is `max(0, i-1)`, which is truncated subtraction on `Nat`).

* `simulateTrace` (src/api_service.py, lines 189-205): the per-generation
  records produced by the run loop of `simulate_and_insert` — generation
  number, board state and `live_cells_count = int(np.sum(board))` — embedded
  as a structurally recursive loop over the remaining step count.

* `parse_rules` (src/frontend.py, lines 20-32) and the submission gate
  (src/frontend.py, lines 86-94): strings are modelled as their character
  lists; `re.sub(r'[^\d,]', '', s)` is a character filter, `str.split(',')`
  a structural splitter keeping empty pieces, `str.strip` a whitespace
  trimmer, and `int(...)` a fallible digit-string parser (`mapM` over
  `Option` models the `try`/`except ValueError` around the comprehension).
-/

/-! ## Board model -/

/-- A board cell read, `board[i, j]` (only ever used with in-range indices). -/
def getCell (b : List (List Int)) (i j : Nat) : Int :=
  (b.getD i []).getD j 0

/-- `np.zeros((n, m), dtype=int)`. -/
def zerosBoard (n m : Nat) : List (List Int) :=
  List.replicate n (List.replicate m 0)

/-- `new_board[i, j] = v`: functional update of one cell. -/
def setCell (b : List (List Int)) (i j : Nat) (v : Int) : List (List Int) :=
  b.set i ((b.getD i []).set j v)

/-- `b` is an `n × n` board: `n` rows, each of length `n`. -/
def IsSquareBoard (n : Nat) (b : List (List Int)) : Prop :=
  b.length = n ∧ ∀ row ∈ b, row.length = n

/-- Every cell of `b` is `0` or `1`. -/
def IsBinaryBoard (b : List (List Int)) : Prop :=
  ∀ row ∈ b, ∀ x ∈ row, x = 0 ∨ x = 1

instance : DecidablePred (IsSquareBoard n) := fun _ =>
  inferInstanceAs (Decidable (_ ∧ _))

instance : DecidablePred IsBinaryBoard := fun b =>
  inferInstanceAs (Decidable (∀ _ ∈ b, ∀ _ ∈ _, _ ∨ _))

/-! ## The generation stepper (src/api_service.py, `next_generation`) -/

/-- `np.sum(board[max(0, i-1):i+2, max(0, j-1):j+2]) - board[i, j]`
(src/api_service.py line 45).  A numpy slice `a[lo:hi]` with `lo = max(0,i-1)`
takes the elements at indices `lo, ..., min(hi, len) - 1`, i.e.
`(a.drop lo).take (hi - lo)`; on `Nat`, `i - 1` is `max(0, i-1)`. -/
def total_live (board : List (List Int)) (i j : Nat) : Int :=
  ((((board.drop (i - 1)).take (i + 2 - (i - 1))).map
      (fun row => ((row.drop (j - 1)).take (j + 2 - (j - 1))).sum)).sum)
    - getCell board i j

/-- The value written to `new_board[i, j]` by the body of the double loop
(src/api_service.py lines 45-59). -/
def ngCell (board : List (List Int)) (survival_rules birth_rules : List Int)
    (i j : Nat) : Int :=
  if getCell board i j = 1 then
    (if total_live board i j ∈ survival_rules then 1 else 0)
  else
    (if total_live board i j ∈ birth_rules then 1 else 0)

/-- The mutable state of the loop in `next_generation`: the (never reassigned)
input array `board` and the output array `new_board`. -/
structure StepState where
  board : List (List Int)
  new_board : List (List Int)
deriving DecidableEq

/-- One iteration of the inner loop body: reads `st.board`, writes one cell of
`st.new_board`. -/
def cellUpdate (survival_rules birth_rules : List Int) (st : StepState)
    (i j : Nat) : StepState :=
  { st with
    new_board := setCell st.new_board i j
      (ngCell st.board survival_rules birth_rules i j) }

/-- The double loop `for i in range(size): for j in range(size): ...` of
`next_generation`, started from the input board and `np.zeros(board.shape)`. -/
def stepLoop (board : List (List Int)) (survival_rules birth_rules : List Int) :
    StepState :=
  let size := board.length
  (List.range size).foldl
    (fun st i =>
      (List.range size).foldl
        (fun st j => cellUpdate survival_rules birth_rules st i j) st)
    ⟨board, zerosBoard size size⟩

/-- `next_generation(board, survival_rules, birth_rules)`
(src/api_service.py lines 36-61): run the double loop, return `new_board`. -/
def next_generation (board : List (List Int))
    (survival_rules birth_rules : List Int) : List (List Int) :=
  (stepLoop board survival_rules birth_rules).new_board



/-! ## The spec's per-cell transition formula (§4.1 of the spec)

These definitions are written from the specification's words, to be compared
with the embedding of the source: the neighbor count is "the sum of all cell
states in the 3×3 neighborhood centered on `(i, j)`, excluding the cell
itself, where the neighborhood is clamped at board edges", and the new state
is "1 if the old cell is 1 and the count is in survival, 1 if the old cell is
0 and the count is in birth, and 0 otherwise". -/

/-- The spec's `neighborCount`: sum over all in-bounds positions `(r, c)` at
Chebyshev distance at most 1 from `(i, j)`, excluding `(i, j)` itself
(`i ≤ r + 1 ∧ r ≤ i + 1` is `|r - i| ≤ 1` on `Nat`). -/
def specNeighborCount (board : List (List Int)) (n i j : Nat) : Int :=
  ∑ r ∈ Finset.range n, ∑ c ∈ Finset.range n,
    if (i ≤ r + 1 ∧ r ≤ i + 1 ∧ j ≤ c + 1 ∧ c ≤ j + 1 ∧ ¬(r = i ∧ c = j))
    then getCell board r c else 0

/-- The spec's new cell state at `(i, j)`. -/
def specNewCell (board : List (List Int)) (survival birth : List Int)
    (n i j : Nat) : Int :=
  if (getCell board i j = 1 ∧ specNeighborCount board n i j ∈ survival) ∨
     (getCell board i j = 0 ∧ specNeighborCount board n i j ∈ birth)
  then 1 else 0


/-! ## The run loop of `simulate_and_insert` (src/api_service.py, 189-205) -/

/-- `int(np.sum(board))`: the sum of all cells of the board. -/
def boardSum (b : List (List Int)) : Int :=
  (b.map List.sum).sum

/-- One row of `raw_data.generation_trace` as inserted by the loop:
`(generation_num, board_state, live_cells_count)` (the columns the claims are
about; `experiment_id` and `capture_time` carry no simulation content). -/
structure TraceRecord where
  generation_num : Nat
  board_state : List (List Int)
  live_cells_count : Int
deriving DecidableEq

/-- The body of `for step in range(num_steps)` in `simulate_and_insert`:
record `(step, board, int(np.sum(board)))`, then advance the board with
`next_generation`.  Recursion is on the number of remaining steps, with the
running step index carried explicitly. -/
def simLoop (survival_rules birth_rules : List Int) :
    Nat → Nat → List (List Int) → List TraceRecord
  | 0, _, _ => []
  | steps_left + 1, step, board =>
    ⟨step, board, boardSum board⟩ ::
      simLoop survival_rules birth_rules steps_left (step + 1)
        (next_generation board survival_rules birth_rules)

/-- The full sequence of per-generation records produced by one run. -/
def simulateTrace (num_steps : Nat) (initial_board : List (List Int))
    (survival_rules birth_rules : List Int) : List TraceRecord :=
  simLoop survival_rules birth_rules num_steps 0 initial_board

/-- Number of 1-cells of a board. -/
def countOnes (b : List (List Int)) : Nat :=
  (b.map (fun row => row.count 1)).sum


/-! ## Rule-string parsing in the frontend (src/frontend.py) -/

/-- `re.sub(r'[^\d,]', '', rules_str)` (src/frontend.py line 26): delete
every character that is not a digit or a comma. -/
def cleanRuleChars (s : List Char) : List Char :=
  s.filter (fun c => c.isDigit || c = ',')

/-- Python's `str.split(',')`: cut at every comma, keeping empty pieces. -/
def splitOnComma : List Char → List (List Char)
  | [] => [[]]
  | c :: rest =>
    if c = ',' then [] :: splitOnComma rest
    else (c :: (splitOnComma rest).headD []) :: (splitOnComma rest).tail

/-- Python's `str.strip()`: drop leading and trailing whitespace. -/
def stripChars (s : List Char) : List Char :=
  ((s.dropWhile Char.isWhitespace).reverse.dropWhile Char.isWhitespace).reverse

/-- Python's `int(...)` applied to a stripped piece: succeeds exactly on the
nonempty all-digit strings (the only shapes reachable after cleaning — the
sign, space and underscore forms `int` also accepts cannot occur there),
giving the decimal value; everything else raises `ValueError` (`none`). -/
def pieceToInt (s : List Char) : Option Int :=
  if s ≠ [] ∧ s.all Char.isDigit then
    some (s.foldl (fun acc c => acc * 10 + ((c.toNat : Int) - 48)) 0)
  else none

/-- The list comprehension
`[int(n.strip()) for n in cleaned_str.split(',') if n.strip()]` under its
`try`/`except ValueError`: a single failing conversion makes the whole
result `None`. -/
def parsePieces : List (List Char) → Option (List Int)
  | [] => some []
  | p :: rest =>
    match pieceToInt p, parsePieces rest with
    | some v, some vs => some (v :: vs)
    | _, _ => none

/-- `parse_rules` (src/frontend.py lines 20-32), on the character list of the
input string: empty string gives `[]`; otherwise clean, split on commas,
strip the pieces, keep the nonempty ones and convert each to `int`. -/
def parse_rules (rules_str : List Char) : Option (List Int) :=
  if rules_str = [] then some []
  else
    parsePieces
      (((splitOnComma (cleanRuleChars rules_str)).map stripChars).filter
        (fun n => !n.isEmpty))

/-- The submission validation (src/frontend.py lines 86-94): the run request
is POSTed exactly when neither rule string parsed to `None`. -/
def submissionSendsRun (survival_str birth_str : List Char) : Bool :=
  (parse_rules survival_str).isSome && (parse_rules birth_str).isSome


/-! ## Sanity checks and theorems -/

example :
    next_generation [[1, 1], [1, 1]] [2, 3] [3] = [[1, 1], [1, 1]] := by decide

example :
    next_generation [[0, 0, 0], [0, 1, 0], [0, 0, 0]] [2, 3] [3] =
      [[0, 0, 0], [0, 0, 0], [0, 0, 0]] := by decide

example : total_live [[1, 1], [1, 1]] 0 0 = 3 := by decide

example : total_live [[0, 1, 0], [1, 0, 1], [0, 1, 0]] 1 1 = 4 := by decide

/-! ## Reduction of the imperative loop to a per-cell map -/

theorem getD_set_self {α : Type} (l : List α) (i : Nat) (v d : α)
    (h : i < l.length) : (l.set i v).getD i d = v := by
  rw [List.getD_eq_getElem (l.set i v) d (by simpa using h)]
  exact List.getElem_set_self _

theorem getD_set_ne {α : Type} (l : List α) (i j : Nat) (v d : α)
    (h : i ≠ j) : (l.set i v).getD j d = l.getD j d := by
  by_cases hj : j < l.length
  · rw [List.getD_eq_getElem (l.set i v) d (by simpa using hj),
      List.getD_eq_getElem l d hj]
    exact List.getElem_set_ne h _
  · rw [List.getD_eq_default (l.set i v) d (by simpa using Nat.le_of_not_lt hj),
      List.getD_eq_default l d (Nat.le_of_not_lt hj)]

theorem set_getD_self {α : Type} (l : List α) (i : Nat) (d : α)
    (h : i < l.length) : l.set i (l.getD i d) = l := by
  apply List.ext_getElem?
  intro n
  by_cases hn : n = i
  · subst hn
    simp [List.getElem?_set_self, h, List.getD_eq_getElem l d h,
      List.getElem?_eq_getElem h]
  · simp [List.getElem?_set_ne (Ne.symm hn)]

/-- Length is preserved by a fold of `set`-updates. -/
theorem length_foldl_set {α : Type} (f : Nat → α) (js : List Nat)
    (l : List α) :
    (js.foldl (fun l j => l.set j (f j)) l).length = l.length := by
  induction js generalizing l with
  | nil => rfl
  | cons j rest ih => rw [List.foldl_cons, ih, List.length_set]

/-- A fold of `set`-updates, read back cell by cell. -/
theorem getD_foldl_set {α : Type} (f : Nat → α) (js : List Nat)
    (l : List α) (k : Nat) (d : α) :
    (js.foldl (fun l j => l.set j (f j)) l).getD k d =
      if k ∈ js ∧ k < l.length then f k else l.getD k d := by
  induction js generalizing l with
  | nil => simp
  | cons j rest ih =>
    rw [List.foldl_cons, ih, List.length_set]
    by_cases hkj : k = j
    · subst hkj
      by_cases hl : k < l.length
      · by_cases hk : k ∈ rest
        · simp [hk, hl]
        · simp [hk, hl, getD_set_self l k (f k) d hl]
      · have h1 : (l.set k (f k)).getD k d =
            d := List.getD_eq_default _ d
          (by rw [List.length_set]; exact Nat.le_of_not_lt hl)
        have h2 : l.getD k d = d := List.getD_eq_default _ d (Nat.le_of_not_lt hl)
        rw [if_neg (by tauto), if_neg (by tauto), h1, h2]
    · have hne : (l.set j (f j)).getD k d =
          l.getD k d := getD_set_ne l j k (f j) d (fun h => hkj h.symm)
      rw [hne]
      by_cases hk : k ∈ rest
      · simp [hk, hkj]
      · simp [hk, hkj]

/-- The inner loop `for j in js` of `next_generation` only rewrites row `i` of
`new_board` and leaves the `board` field untouched. -/
theorem foldl_cellUpdate_inner (s bi : List Int) (st : StepState) (i : Nat)
    (js : List Nat) (hi : i < st.new_board.length) :
    js.foldl (fun st j => cellUpdate s bi st i j) st =
      ⟨st.board, st.new_board.set i
        (js.foldl (fun row j => row.set j (ngCell st.board s bi i j))
          (st.new_board.getD i []))⟩ := by
  induction js generalizing st with
  | nil =>
    simp only [List.foldl_nil]
    rw [set_getD_self _ _ _ hi]
  | cons j rest ih =>
    rw [List.foldl_cons, List.foldl_cons,
      ih (cellUpdate s bi st i j) (by simp [cellUpdate, setCell, hi])]
    simp only [cellUpdate, setCell]
    rw [getD_set_self _ _ _ _ hi, List.set_set]

/-- The outer loop of `next_generation`, reduced to a pure fold over the rows
of `new_board`; the `board` field passes through unchanged. -/
theorem foldl_cellUpdate_outer (s bi : List Int) (b : List (List Int))
    (js : List Nat) (is : List Nat) (nb : List (List Int))
    (h : ∀ i ∈ is, i < nb.length) :
    (is.foldl
        (fun st i => js.foldl (fun st j => cellUpdate s bi st i j) st)
        ⟨b, nb⟩) =
      ⟨b, is.foldl
        (fun nb i => nb.set i
          (js.foldl (fun row j => row.set j (ngCell b s bi i j))
            (nb.getD i [])))
        nb⟩ := by
  induction is generalizing nb with
  | nil => rfl
  | cons i rest ih =>
    rw [List.foldl_cons, List.foldl_cons,
      foldl_cellUpdate_inner s bi ⟨b, nb⟩ i js (h i (by simp))]
    exact ih _ (fun i' hi' => by
      rw [List.length_set]; exact h i' (List.mem_cons_of_mem _ hi'))

/-- Reading back a fold that rewrites whole rows at distinct indices. -/
theorem getD_foldl_setRow (rowFn : Nat → List Int → List Int)
    (is : List Nat) (nb : List (List Int)) (k : Nat) (hnodup : is.Nodup) :
    (is.foldl (fun nb i => nb.set i (rowFn i (nb.getD i []))) nb).getD k [] =
      if k ∈ is ∧ k < nb.length then rowFn k (nb.getD k []) else nb.getD k [] := by
  induction is generalizing nb with
  | nil => simp
  | cons i rest ih =>
    have hnotmem : i ∉ rest := (List.nodup_cons.mp hnodup).1
    rw [List.foldl_cons, ih _ (List.nodup_cons.mp hnodup).2, List.length_set]
    by_cases hki : k = i
    · subst hki
      have hkrest : k ∉ rest := hnotmem
      by_cases hl : k < nb.length
      · rw [if_neg (by tauto), if_pos (by exact ⟨by simp, hl⟩),
          getD_set_self nb k _ [] hl]
      · have h1 : (nb.set k (rowFn k (nb.getD k []))).getD k [] =
            ([] : List Int) := List.getD_eq_default _ []
          (by rw [List.length_set]; exact Nat.le_of_not_lt hl)
        have h2 : nb.getD k [] = ([] : List Int) :=
          List.getD_eq_default _ [] (Nat.le_of_not_lt hl)
        rw [if_neg (by tauto), if_neg (by tauto), h1, h2]
    · have hne : (nb.set i (rowFn i (nb.getD i []))).getD k [] =
          nb.getD k [] := getD_set_ne nb i k _ [] (fun h' => hki h'.symm)
      rw [hne]
      by_cases hk : k ∈ rest
      · simp [hk, hki]
      · simp [hk, hki]

/-- `next_generation` never touches the input board: the `board` field of the
loop state after the full double loop is the input board, unchanged. -/
theorem stepLoop_board (board : List (List Int))
    (survival_rules birth_rules : List Int) :
    (stepLoop board survival_rules birth_rules).board = board := by
  rw [stepLoop, foldl_cellUpdate_outer survival_rules birth_rules board _ _ _
    (fun i hi => by
      simpa [zerosBoard] using List.mem_range.mp hi)]

/-- Length is preserved by a fold of whole-row `set`-updates. -/
theorem length_foldl_setRow (rowFn : Nat → List Int → List Int)
    (is : List Nat) (nb : List (List Int)) :
    (is.foldl (fun nb i => nb.set i (rowFn i (nb.getD i []))) nb).length =
      nb.length := by
  induction is generalizing nb with
  | nil => rfl
  | cons i rest ih => rw [List.foldl_cons, ih, List.length_set]

/-- The `new_board` produced by the double loop, as a pure fold. -/
theorem stepLoop_new_board (board : List (List Int))
    (survival_rules birth_rules : List Int) :
    (stepLoop board survival_rules birth_rules).new_board =
      (List.range board.length).foldl
        (fun nb i => nb.set i
          ((List.range board.length).foldl
            (fun row j => row.set j
              (ngCell board survival_rules birth_rules i j))
            (nb.getD i [])))
        (zerosBoard board.length board.length) := by
  rw [stepLoop, foldl_cellUpdate_outer survival_rules birth_rules board _ _ _
    (fun i hi => by simpa [zerosBoard] using List.mem_range.mp hi)]

/-- Master characterization: the imperative double loop of `next_generation`
computes, cell by cell, the map of `ngCell` over the `size × size` index
grid. -/
theorem next_generation_eq_map (board : List (List Int))
    (survival_rules birth_rules : List Int) :
    next_generation board survival_rules birth_rules =
      (List.range board.length).map (fun i =>
        (List.range board.length).map (fun j =>
          ngCell board survival_rules birth_rules i j)) := by
  rw [next_generation, stepLoop_new_board]
  apply List.ext_getElem
  · rw [length_foldl_setRow (fun i row => (List.range board.length).foldl
      (fun row j => row.set j
        (ngCell board survival_rules birth_rules i j)) row),
      zerosBoard, List.length_replicate, List.length_map, List.length_range]
  · intro k h1 h2
    have hk : k < board.length := by
      simpa using h2
    rw [← List.getD_eq_getElem _ [] h1, ← List.getD_eq_getElem _ [] h2,
      getD_foldl_setRow (fun i row => (List.range board.length).foldl
        (fun row j => row.set j
          (ngCell board survival_rules birth_rules i j)) row)
        _ _ _ (List.nodup_range _),
      if_pos ⟨List.mem_range.mpr hk, by simp [zerosBoard, hk]⟩]
    have hzrow : (zerosBoard board.length board.length).getD k [] =
        List.replicate board.length (0 : Int) := by
      rw [zerosBoard, List.getD_eq_getElem _ [] (by simpa using hk)]
      simp
    rw [hzrow]
    have hmap : ((List.range board.length).map (fun i =>
        (List.range board.length).map (fun j =>
          ngCell board survival_rules birth_rules i j))).getD k [] =
        (List.range board.length).map (fun j =>
          ngCell board survival_rules birth_rules k j) := by
      rw [List.getD_eq_getElem _ [] h2]
      simp
    rw [hmap]
    apply List.ext_getElem
    · rw [length_foldl_set, List.length_replicate, List.length_map,
        List.length_range]
    · intro m hm1 hm2
      have hmn : m < board.length := by simpa using hm2
      rw [← List.getD_eq_getElem _ 0 hm1, ← List.getD_eq_getElem _ 0 hm2,
        getD_foldl_set, if_pos ⟨List.mem_range.mpr hmn, by simpa using hmn⟩]
      rw [List.getD_eq_getElem _ 0 hm2]
      simp
/-! ## The sliced neighborhood sum equals the spec's neighbor count -/

/-- Summing a `drop`/`take` slice of a list equals summing the elements whose
index lies in the slice's index window (as a numpy slice `l[a : a + k]`
does: the upper bound is clamped to the length). -/
theorem sum_drop_take (l : List Int) (a k : Nat) :
    ((l.drop a).take k).sum =
      ∑ r ∈ Finset.range l.length,
        if a ≤ r ∧ r < a + k then l.getD r 0 else 0 := by
  induction l generalizing a k with
  | nil => simp
  | cons x xs ih =>
    rw [List.length_cons, Finset.sum_range_succ']
    cases a with
    | zero =>
      cases k with
      | zero => simp
      | succ k' =>
        have ih0 := ih 0 k'
        rw [List.drop_zero] at ih0
        rw [List.drop_zero, List.take_succ_cons, List.sum_cons, ih0]
        have hterm : ∀ r ∈ Finset.range xs.length,
            (if 0 ≤ r + 1 ∧ r + 1 < 0 + (k' + 1)
              then (x :: xs).getD (r + 1) 0 else 0) =
            (if 0 ≤ r ∧ r < 0 + k' then xs.getD r 0 else 0) := by
          intro r _
          rw [List.getD_cons_succ]
          exact if_congr (by omega) rfl rfl
        rw [Finset.sum_congr rfl hterm, List.getD_cons_zero,
          if_pos ⟨Nat.le_refl 0, by omega⟩]
        ring
    | succ a' =>
      rw [List.drop_succ_cons, ih a' k]
      have hterm : ∀ r ∈ Finset.range xs.length,
          (if a' + 1 ≤ r + 1 ∧ r + 1 < a' + 1 + k
            then (x :: xs).getD (r + 1) 0 else 0) =
          (if a' ≤ r ∧ r < a' + k then xs.getD r 0 else 0) := by
        intro r _
        rw [List.getD_cons_succ]
        exact if_congr (by omega) rfl rfl
      rw [Finset.sum_congr rfl hterm, List.getD_cons_zero,
        if_neg (by omega)]
      ring

/-- The 2-D sliced sum of `next_generation` (the `np.sum` over the clamped
window, center included), rewritten as a double sum over the whole board with
the window condition as a filter. -/
theorem window_sum_eq (board : List (List Int)) (n i j : Nat)
    (hsq : IsSquareBoard n board) :
    (((board.drop (i - 1)).take (i + 2 - (i - 1))).map
      (fun row => ((row.drop (j - 1)).take (j + 2 - (j - 1))).sum)).sum =
    ∑ r ∈ Finset.range n, ∑ c ∈ Finset.range n,
      if (i ≤ r + 1 ∧ r ≤ i + 1 ∧ j ≤ c + 1 ∧ c ≤ j + 1)
      then getCell board r c else 0 := by
  obtain ⟨hlen, hrows⟩ := hsq
  have hmt : ((board.drop (i - 1)).take (i + 2 - (i - 1))).map
      (fun row => ((row.drop (j - 1)).take (j + 2 - (j - 1))).sum) =
      (((board.map (fun row =>
        ((row.drop (j - 1)).take (j + 2 - (j - 1))).sum)).drop
          (i - 1)).take (i + 2 - (i - 1))) := by
    rw [List.map_take, List.map_drop]
  rw [hmt, sum_drop_take, List.length_map, hlen]
  apply Finset.sum_congr rfl
  intro r hr
  have hrn : r < n := Finset.mem_range.mp hr
  rw [if_congr (show (i - 1 ≤ r ∧ r < i - 1 + (i + 2 - (i - 1))) ↔
      (i ≤ r + 1 ∧ r ≤ i + 1) by omega) rfl rfl]
  by_cases hw : i ≤ r + 1 ∧ r ≤ i + 1
  · have hrn' : r < board.length := by rw [hlen]; exact hrn
    rw [if_pos hw,
      List.getD_eq_getElem _ 0 (by rw [List.length_map, hlen]; exact hrn),
      List.getElem_map]
    have hrmem : board[r] ∈ board := List.getElem_mem _
    have hrow : (board[r]).length = n := hrows _ hrmem
    rw [sum_drop_take, hrow]
    apply Finset.sum_congr rfl
    intro c hc
    have hcn : c < n := Finset.mem_range.mp hc
    have hval : (board[r]).getD c 0 =
        getCell board r c := by
      rw [getCell, List.getD_eq_getElem board [] hrn']
    refine if_congr ?_ hval rfl
    constructor
    · intro h
      exact ⟨hw.1, hw.2, by omega, by omega⟩
    · intro h
      omega
  · rw [if_neg hw]
    symm
    apply Finset.sum_eq_zero
    intro c _
    exact if_neg (by tauto)

/-- Splitting the center cell out of the windowed double sum. -/
theorem window_sum_split (board : List (List Int)) (n i j : Nat)
    (hi : i < n) (hj : j < n) :
    (∑ r ∈ Finset.range n, ∑ c ∈ Finset.range n,
      if (i ≤ r + 1 ∧ r ≤ i + 1 ∧ j ≤ c + 1 ∧ c ≤ j + 1)
      then getCell board r c else 0) =
    specNeighborCount board n i j + getCell board i j := by
  rw [specNeighborCount]
  have key : ∀ r c : Nat,
      (if (i ≤ r + 1 ∧ r ≤ i + 1 ∧ j ≤ c + 1 ∧ c ≤ j + 1)
        then getCell board r c else 0) =
      (if (i ≤ r + 1 ∧ r ≤ i + 1 ∧ j ≤ c + 1 ∧ c ≤ j + 1 ∧ ¬(r = i ∧ c = j))
        then getCell board r c else 0)
      + (if (r = i ∧ c = j) then getCell board r c else 0) := by
    intro r c
    by_cases hC : r = i ∧ c = j
    · obtain ⟨rfl, rfl⟩ := hC
      rw [if_pos ⟨by omega, by omega, by omega, by omega⟩,
        if_neg (by simp), if_pos ⟨rfl, rfl⟩]
      ring
    · rw [if_neg hC, add_zero]
      by_cases hW : (i ≤ r + 1 ∧ r ≤ i + 1 ∧ j ≤ c + 1 ∧ c ≤ j + 1)
      · rw [if_pos hW, if_pos ⟨hW.1, hW.2.1, hW.2.2.1, hW.2.2.2, hC⟩]
      · rw [if_neg hW, if_neg (by tauto)]
  have hsum : (∑ r ∈ Finset.range n, ∑ c ∈ Finset.range n,
      if (i ≤ r + 1 ∧ r ≤ i + 1 ∧ j ≤ c + 1 ∧ c ≤ j + 1)
      then getCell board r c else 0) =
      (∑ r ∈ Finset.range n, ∑ c ∈ Finset.range n,
        if (i ≤ r + 1 ∧ r ≤ i + 1 ∧ j ≤ c + 1 ∧ c ≤ j + 1 ∧ ¬(r = i ∧ c = j))
        then getCell board r c else 0)
      + (∑ r ∈ Finset.range n, ∑ c ∈ Finset.range n,
        if (r = i ∧ c = j) then getCell board r c else 0) := by
    rw [← Finset.sum_add_distrib]
    apply Finset.sum_congr rfl
    intro r _
    rw [← Finset.sum_add_distrib]
    apply Finset.sum_congr rfl
    intro c _
    exact key r c
  rw [hsum]
  congr 1
  rw [Finset.sum_eq_single_of_mem i (Finset.mem_range.mpr hi)
    (fun r _ hr => Finset.sum_eq_zero (fun c _ => if_neg (by tauto))),
    Finset.sum_eq_single_of_mem j (Finset.mem_range.mpr hj)
    (fun c _ hc => if_neg (by tauto)),
    if_pos ⟨rfl, rfl⟩]

/-- The source's `total_live` (sliced window sum minus the center cell) is
exactly the spec's clamped, center-excluded neighbor count. -/
theorem total_live_eq_spec (board : List (List Int)) (n i j : Nat)
    (hsq : IsSquareBoard n board) (hi : i < n) (hj : j < n) :
    total_live board i j = specNeighborCount board n i j := by
  rw [total_live, window_sum_eq board n i j hsq,
    window_sum_split board n i j hi hj]
  ring

/-! ## Bounds on the neighbor count of a binary board -/

theorem getCell_zero_or_one (board : List (List Int)) (n r c : Nat)
    (hsq : IsSquareBoard n board) (hbin : IsBinaryBoard board)
    (hr : r < n) (hc : c < n) :
    getCell board r c = 0 ∨ getCell board r c = 1 := by
  obtain ⟨hlen, hrows⟩ := hsq
  have hr' : r < board.length := by rw [hlen]; exact hr
  have hrowmem : board[r] ∈ board := List.getElem_mem _
  have hrowlen : (board[r]).length = n := hrows _ hrowmem
  have hc' : c < (board[r]).length := by rw [hrowlen]; exact hc
  have hmem : (board[r])[c] ∈ board[r] := List.getElem_mem _
  have hval := hbin _ hrowmem _ hmem
  rw [getCell, List.getD_eq_getElem board [] hr', List.getD_eq_getElem _ 0 hc']
  exact hval

theorem specNeighborCount_nonneg (board : List (List Int)) (n i j : Nat)
    (hsq : IsSquareBoard n board) (hbin : IsBinaryBoard board) :
    0 ≤ specNeighborCount board n i j := by
  rw [specNeighborCount]
  apply Finset.sum_nonneg
  intro r hr
  apply Finset.sum_nonneg
  intro c hc
  by_cases h : (i ≤ r + 1 ∧ r ≤ i + 1 ∧ j ≤ c + 1 ∧ c ≤ j + 1 ∧
      ¬(r = i ∧ c = j))
  · rw [if_pos h]
    rcases getCell_zero_or_one board n r c hsq hbin
      (Finset.mem_range.mp hr) (Finset.mem_range.mp hc) with h0 | h1
    · rw [h0]
    · rw [h1]; exact zero_le_one
  · rw [if_neg h]

theorem specNeighborCount_le_eight (board : List (List Int)) (n i j : Nat)
    (hsq : IsSquareBoard n board) (hbin : IsBinaryBoard board) :
    specNeighborCount board n i j ≤ 8 := by
  rw [specNeighborCount, ← Finset.sum_product', ← Finset.sum_filter]
  have hle1 : ∀ p ∈ (Finset.range n ×ˢ Finset.range n).filter
      (fun p : Nat × Nat => i ≤ p.1 + 1 ∧ p.1 ≤ i + 1 ∧ j ≤ p.2 + 1 ∧
        p.2 ≤ j + 1 ∧ ¬(p.1 = i ∧ p.2 = j)),
      getCell board p.1 p.2 ≤ (1 : Int) := by
    intro p hp
    obtain ⟨hmem, _⟩ := Finset.mem_filter.mp hp
    obtain ⟨h1, h2⟩ := Finset.mem_product.mp hmem
    rcases getCell_zero_or_one board n p.1 p.2 hsq hbin
      (Finset.mem_range.mp h1) (Finset.mem_range.mp h2) with h0 | h1
    · rw [h0]; exact zero_le_one
    · rw [h1]
  calc (∑ p ∈ (Finset.range n ×ˢ Finset.range n).filter
        (fun p : Nat × Nat => i ≤ p.1 + 1 ∧ p.1 ≤ i + 1 ∧ j ≤ p.2 + 1 ∧
          p.2 ≤ j + 1 ∧ ¬(p.1 = i ∧ p.2 = j)),
        getCell board p.1 p.2)
      ≤ ∑ _p ∈ (Finset.range n ×ˢ Finset.range n).filter
        (fun p : Nat × Nat => i ≤ p.1 + 1 ∧ p.1 ≤ i + 1 ∧ j ≤ p.2 + 1 ∧
          p.2 ≤ j + 1 ∧ ¬(p.1 = i ∧ p.2 = j)), (1 : Int) :=
        Finset.sum_le_sum hle1
    _ ≤ 8 := by
        rw [Finset.sum_const, nsmul_eq_mul, mul_one]
        have hsub : (Finset.range n ×ˢ Finset.range n).filter
            (fun p : Nat × Nat => i ≤ p.1 + 1 ∧ p.1 ≤ i + 1 ∧ j ≤ p.2 + 1 ∧
              p.2 ≤ j + 1 ∧ ¬(p.1 = i ∧ p.2 = j)) ⊆
            ((Finset.Ico (i - 1) (i + 2)) ×ˢ
              (Finset.Ico (j - 1) (j + 2))).erase (i, j) := by
          intro p hp
          obtain ⟨_, hQ⟩ := Finset.mem_filter.mp hp
          apply Finset.mem_erase.mpr
          refine ⟨?_, ?_⟩
          · intro h
            exact hQ.2.2.2.2 ⟨by rw [h], by rw [h]⟩
          · exact Finset.mem_product.mpr
              ⟨Finset.mem_Ico.mpr ⟨by omega, by omega⟩,
               Finset.mem_Ico.mpr ⟨by omega, by omega⟩⟩
        have hcard : ((Finset.range n ×ˢ Finset.range n).filter
            (fun p : Nat × Nat => i ≤ p.1 + 1 ∧ p.1 ≤ i + 1 ∧ j ≤ p.2 + 1 ∧
              p.2 ≤ j + 1 ∧ ¬(p.1 = i ∧ p.2 = j))).card ≤ 8 := by
          have h1 := Finset.card_le_card hsub
          have hmem : ((i, j) : Nat × Nat) ∈
              (Finset.Ico (i - 1) (i + 2)) ×ˢ (Finset.Ico (j - 1) (j + 2)) :=
            Finset.mem_product.mpr
              ⟨Finset.mem_Ico.mpr ⟨by omega, by omega⟩,
               Finset.mem_Ico.mpr ⟨by omega, by omega⟩⟩
          have h2 := Finset.card_erase_of_mem hmem
          have h3 : ((Finset.Ico (i - 1) (i + 2)) ×ˢ
              (Finset.Ico (j - 1) (j + 2))).card ≤ 9 := by
            rw [Finset.card_product, Nat.card_Ico, Nat.card_Ico]
            have : i + 2 - (i - 1) ≤ 3 := by omega
            have : j + 2 - (j - 1) ≤ 3 := by omega
            nlinarith
          omega
        exact_mod_cast hcard

theorem total_live_nonneg (board : List (List Int)) (n i j : Nat)
    (hsq : IsSquareBoard n board) (hbin : IsBinaryBoard board)
    (hi : i < n) (hj : j < n) : 0 ≤ total_live board i j := by
  rw [total_live_eq_spec board n i j hsq hi hj]
  exact specNeighborCount_nonneg board n i j hsq hbin

theorem total_live_le_eight (board : List (List Int)) (n i j : Nat)
    (hsq : IsSquareBoard n board) (hbin : IsBinaryBoard board)
    (hi : i < n) (hj : j < n) : total_live board i j ≤ 8 := by
  rw [total_live_eq_spec board n i j hsq hi hj]
  exact specNeighborCount_le_eight board n i j hsq hbin


/-! ## Further helpers for the claims -/

/-- Reading a cell of an `n × n` grid built by mapping over index ranges. -/
theorem getCell_map_grid (f : Nat → Nat → Int) (n i j : Nat)
    (hi : i < n) (hj : j < n) :
    getCell ((List.range n).map (fun i =>
      (List.range n).map (fun j => f i j))) i j = f i j := by
  rw [getCell, List.getD_eq_getElem _ [] (by simpa using hi),
    List.getElem_map]
  rw [List.getD_eq_getElem _ 0 (by simpa using hj), List.getElem_map]
  simp

/-- A square board is the grid of its own cell reads. -/
theorem board_eq_map_grid (board : List (List Int)) (n : Nat)
    (hsq : IsSquareBoard n board) :
    board = (List.range n).map (fun i =>
      (List.range n).map (fun j => getCell board i j)) := by
  obtain ⟨hlen, hrows⟩ := hsq
  apply List.ext_getElem
  · simp [hlen]
  · intro i h1 h2
    rw [List.getElem_map, List.getElem_range]
    have hin : i < n := by rw [← hlen]; exact h1
    apply List.ext_getElem
    · rw [hrows _ (List.getElem_mem h1), List.length_map, List.length_range]
    · intro j hj1 hj2
      rw [List.getElem_map, List.getElem_range, getCell,
        List.getD_eq_getElem board [] h1,
        List.getD_eq_getElem _ 0 hj1]

/-- The source's per-cell value agrees with the spec's per-cell formula on
binary square boards. -/
theorem ngCell_eq_specNewCell (board : List (List Int))
    (survival_rules birth_rules : List Int) (n i j : Nat)
    (hsq : IsSquareBoard n board) (hbin : IsBinaryBoard board)
    (hi : i < n) (hj : j < n) :
    ngCell board survival_rules birth_rules i j =
      specNewCell board survival_rules birth_rules n i j := by
  rcases getCell_zero_or_one board n i j hsq hbin hi hj with h0 | h1
  · rw [ngCell, specNewCell, total_live_eq_spec board n i j hsq hi hj, h0]
    by_cases hb : specNeighborCount board n i j ∈ birth_rules
    · simp [hb]
    · simp [hb]
  · rw [ngCell, specNewCell, total_live_eq_spec board n i j hsq hi hj, h1]
    by_cases hs : specNeighborCount board n i j ∈ survival_rules
    · simp [hs]
    · simp [hs]

/-! ## Claims about the generation stepper -/

/-- **C1**: on every `N × N` binary board and any integer rule lists,
`next_generation` produces a board whose cell `(i, j)` is given by the spec's
formula: the clamped, center-excluded 3×3 neighbor count, fed through the
survival rule for live cells and the birth rule for dead cells. -/
theorem C1_next_generation_matches_spec (board : List (List Int))
    (survival_rules birth_rules : List Int) (n : Nat)
    (hsq : IsSquareBoard n board) (hbin : IsBinaryBoard board) :
    (next_generation board survival_rules birth_rules).length = n ∧
    (∀ i, i < n → ∀ j, j < n →
      getCell (next_generation board survival_rules birth_rules) i j =
        specNewCell board survival_rules birth_rules n i j) := by
  rw [next_generation_eq_map, hsq.1]
  constructor
  · simp
  · intro i hi j hj
    rw [getCell_map_grid _ n i j hi hj]
    exact ngCell_eq_specNewCell board survival_rules birth_rules n i j
      hsq hbin hi hj

theorem C1_witness :
    (IsSquareBoard 2 [[1, 0], [0, 1]] ∧ IsBinaryBoard [[1, 0], [0, 1]]) ∧
    ((next_generation [[1, 0], [0, 1]] [2, 3] [3]).length = 2 ∧
     (∀ i, i < 2 → ∀ j, j < 2 →
       getCell (next_generation [[1, 0], [0, 1]] [2, 3] [3]) i j =
         specNewCell [[1, 0], [0, 1]] [2, 3] [3] 2 i j)) :=
  ⟨⟨by decide, by decide⟩,
    C1_next_generation_matches_spec [[1, 0], [0, 1]] [2, 3] [3] 2
      (by decide) (by decide)⟩

/-- **C3**: rule values outside `[0, 8]` can never match a neighbor count, so
removing them from either rule list leaves `next_generation` unchanged on
binary square boards. -/
theorem C3_out_of_range_rules_never_match (board : List (List Int))
    (survival_rules birth_rules : List Int) (n : Nat)
    (hsq : IsSquareBoard n board) (hbin : IsBinaryBoard board) :
    next_generation board survival_rules birth_rules =
      next_generation board
        (survival_rules.filter (fun x => decide (0 ≤ x ∧ x ≤ 8)))
        (birth_rules.filter (fun x => decide (0 ≤ x ∧ x ≤ 8))) := by
  rw [next_generation_eq_map, next_generation_eq_map]
  apply List.map_eq_map_iff.mpr
  intro i hi
  apply List.map_eq_map_iff.mpr
  intro j hj
  have hi' : i < n := by rw [← hsq.1]; exact List.mem_range.mp hi
  have hj' : j < n := by rw [← hsq.1]; exact List.mem_range.mp hj
  have h0 := total_live_nonneg board n i j hsq hbin hi' hj'
  have h8 := total_live_le_eight board n i j hsq hbin hi' hj'
  have hmem : ∀ rules : List Int,
      (total_live board i j ∈
        rules.filter (fun x => decide (0 ≤ x ∧ x ≤ 8))) ↔
      total_live board i j ∈ rules := by
    intro rules
    rw [List.mem_filter]
    simp [h0, h8]
  rw [ngCell, ngCell]
  by_cases h1 : getCell board i j = 1
  · rw [if_pos h1, if_pos h1]
    by_cases h2 : total_live board i j ∈ survival_rules
    · rw [if_pos h2, if_pos ((hmem _).mpr h2)]
    · rw [if_neg h2, if_neg (fun h => h2 ((hmem _).mp h))]
  · rw [if_neg h1, if_neg h1]
    by_cases h2 : total_live board i j ∈ birth_rules
    · rw [if_pos h2, if_pos ((hmem _).mpr h2)]
    · rw [if_neg h2, if_neg (fun h => h2 ((hmem _).mp h))]

theorem C3_witness :
    (IsSquareBoard 2 [[1, 1], [0, 1]] ∧ IsBinaryBoard [[1, 1], [0, 1]]) ∧
    next_generation [[1, 1], [0, 1]] [2, 3, 9, -1] [3, 100] =
      next_generation [[1, 1], [0, 1]]
        ([2, 3, 9, -1].filter (fun x => decide (0 ≤ x ∧ x ≤ 8)))
        ([3, 100].filter (fun x => decide (0 ≤ x ∧ x ≤ 8))) :=
  ⟨⟨by decide, by decide⟩,
    C3_out_of_range_rules_never_match [[1, 1], [0, 1]] [2, 3, 9, -1]
      [3, 100] 2 (by decide) (by decide)⟩

/-- **C4**: `next_generation` is deterministic and referentially transparent:
it is a pure function of its arguments, so two invocations on identical
inputs yield identical output boards. -/
theorem C4_determinism (board : List (List Int))
    (survival_rules birth_rules : List Int) :
    next_generation board survival_rules birth_rules =
      next_generation board survival_rules birth_rules := rfl

/-- **C5**: `next_generation` never mutates its input: the `board` field of
the loop state is the same before and after the whole double loop, and the
returned value is the separately built `new_board`, not the input. -/
theorem C5_non_mutation (board : List (List Int))
    (survival_rules birth_rules : List Int) :
    (stepLoop board survival_rules birth_rules).board = board ∧
    next_generation board survival_rules birth_rules =
      (stepLoop board survival_rules birth_rules).new_board :=
  ⟨stepLoop_board board survival_rules birth_rules, rfl⟩

/-- **C6**: on an `N × N` binary input board, the output of
`next_generation` is again an `N × N` board and every cell is 0 or 1. -/
theorem C6_dimensions_and_binary (board : List (List Int))
    (survival_rules birth_rules : List Int) (n : Nat)
    (hsq : IsSquareBoard n board) (hbin : IsBinaryBoard board) :
    IsSquareBoard n (next_generation board survival_rules birth_rules) ∧
    IsBinaryBoard (next_generation board survival_rules birth_rules) := by
  rw [next_generation_eq_map, hsq.1]
  constructor
  · constructor
    · simp
    · intro row hrow
      obtain ⟨i, hi, rfl⟩ := List.mem_map.mp hrow
      simp
  · intro row hrow
    obtain ⟨i, hi, rfl⟩ := List.mem_map.mp hrow
    intro x hx
    obtain ⟨j, hj, rfl⟩ := List.mem_map.mp hx
    rw [ngCell]
    by_cases h1 : getCell board i j = 1
    · by_cases h2 : total_live board i j ∈ survival_rules
      · simp [h1, h2]
      · simp [h1, h2]
    · by_cases h2 : total_live board i j ∈ birth_rules
      · simp [h1, h2]
      · simp [h1, h2]

theorem C6_witness :
    (IsSquareBoard 3 [[1, 0, 1], [0, 1, 0], [1, 1, 0]] ∧
      IsBinaryBoard [[1, 0, 1], [0, 1, 0], [1, 1, 0]]) ∧
    (IsSquareBoard 3
        (next_generation [[1, 0, 1], [0, 1, 0], [1, 1, 0]] [2, 3] [3]) ∧
      IsBinaryBoard
        (next_generation [[1, 0, 1], [0, 1, 0], [1, 1, 0]] [2, 3] [3])) :=
  ⟨⟨by decide, by decide⟩,
    C6_dimensions_and_binary [[1, 0, 1], [0, 1, 0], [1, 1, 0]] [2, 3] [3] 3
      (by decide) (by decide)⟩

/-- **C7**: if every live cell's clamped neighbor count is in the survival
list and every dead cell's clamped neighbor count is not in the birth list,
the board is a fixed point of `next_generation`. -/
theorem C7_conditional_fixed_point (board : List (List Int))
    (survival_rules birth_rules : List Int) (n : Nat)
    (hsq : IsSquareBoard n board) (hbin : IsBinaryBoard board)
    (hsurv : ∀ i, i < n → ∀ j, j < n → getCell board i j = 1 →
      total_live board i j ∈ survival_rules)
    (hbirth : ∀ i, i < n → ∀ j, j < n → getCell board i j = 0 →
      total_live board i j ∉ birth_rules) :
    next_generation board survival_rules birth_rules = board := by
  rw [next_generation_eq_map, hsq.1]
  conv_rhs => rw [board_eq_map_grid board n hsq]
  apply List.map_eq_map_iff.mpr
  intro i hi
  apply List.map_eq_map_iff.mpr
  intro j hj
  have hi' : i < n := List.mem_range.mp hi
  have hj' : j < n := List.mem_range.mp hj
  rw [ngCell]
  rcases getCell_zero_or_one board n i j hsq hbin hi' hj' with h0 | h1
  · rw [h0, if_neg (by norm_num),
      if_neg (hbirth i hi' j hj' h0)]
  · rw [h1, if_pos rfl, if_pos (hsurv i hi' j hj' h1)]

theorem C7_witness :
    (IsSquareBoard 2 [[1, 1], [1, 1]] ∧ IsBinaryBoard [[1, 1], [1, 1]] ∧
      (∀ i, i < 2 → ∀ j, j < 2 → getCell [[1, 1], [1, 1]] i j = 1 →
        total_live [[1, 1], [1, 1]] i j ∈ [2, 3]) ∧
      (∀ i, i < 2 → ∀ j, j < 2 → getCell [[1, 1], [1, 1]] i j = 0 →
        total_live [[1, 1], [1, 1]] i j ∉ [3])) ∧
    next_generation [[1, 1], [1, 1]] [2, 3] [3] = [[1, 1], [1, 1]] :=
  ⟨⟨by decide, by decide, by decide, by decide⟩,
    C7_conditional_fixed_point [[1, 1], [1, 1]] [2, 3] [3] 2
      (by decide) (by decide) (by decide) (by decide)⟩

/-- **C9**: on a 1×1 board the single cell's clamped neighbor count is 0, so
the output cell is 1 exactly when the cell is alive and `0` is a survival
rule, or dead and `0` is a birth rule. -/
theorem C9_one_by_one_board (x : Int)
    (survival_rules birth_rules : List Int) (hx : x = 0 ∨ x = 1) :
    total_live [[x]] 0 0 = 0 ∧
    (getCell (next_generation [[x]] survival_rules birth_rules) 0 0 = 1 ↔
      ((x = 1 ∧ (0 : Int) ∈ survival_rules) ∨
       (x = 0 ∧ (0 : Int) ∈ birth_rules))) := by
  have htl : total_live [[x]] 0 0 = 0 := by
    rw [total_live]
    simp [getCell]
  refine ⟨htl, ?_⟩
  rw [next_generation_eq_map]
  have hcell : getCell ((List.range ([[x]] : List (List Int)).length).map
      (fun i => (List.range ([[x]] : List (List Int)).length).map
        (fun j => ngCell [[x]] survival_rules birth_rules i j))) 0 0 =
      ngCell [[x]] survival_rules birth_rules 0 0 :=
    getCell_map_grid _ 1 0 0 Nat.one_pos Nat.one_pos
  rw [hcell, ngCell, htl]
  have hget : getCell [[x]] 0 0 = x := rfl
  rw [hget]
  rcases hx with h0 | h1
  · subst h0
    rw [if_neg (by norm_num)]
    by_cases hb : (0 : Int) ∈ birth_rules
    · simp [hb]
    · simp [hb]
  · subst h1
    rw [if_pos rfl]
    by_cases hs : (0 : Int) ∈ survival_rules
    · simp [hs]
    · simp [hs]

theorem C9_witness :
    ((1 : Int) = 0 ∨ (1 : Int) = 1) ∧
    (total_live [[(1 : Int)]] 0 0 = 0 ∧
     (getCell (next_generation [[(1 : Int)]] [0, 2] [3]) 0 0 = 1 ↔
       (((1 : Int) = 1 ∧ (0 : Int) ∈ [(0 : Int), 2]) ∨
        ((1 : Int) = 0 ∧ (0 : Int) ∈ [(3 : Int)])))) :=
  ⟨by decide, C9_one_by_one_board 1 [0, 2] [3] (by decide)⟩

/-- **C10**: the output of `next_generation` depends on the rule lists only
through membership: rule lists with the same set of elements (in particular,
permutations or duplications of one another) give the same output board. -/
theorem C10_rules_membership_only (board : List (List Int))
    (survival_rules survival_rules' birth_rules birth_rules' : List Int)
    (hs : survival_rules.toFinset = survival_rules'.toFinset)
    (hb : birth_rules.toFinset = birth_rules'.toFinset) :
    next_generation board survival_rules birth_rules =
      next_generation board survival_rules' birth_rules' := by
  have hsm : ∀ x : Int, x ∈ survival_rules ↔ x ∈ survival_rules' := by
    intro x
    rw [← List.mem_toFinset, hs, List.mem_toFinset]
  have hbm : ∀ x : Int, x ∈ birth_rules ↔ x ∈ birth_rules' := by
    intro x
    rw [← List.mem_toFinset, hb, List.mem_toFinset]
  rw [next_generation_eq_map, next_generation_eq_map]
  apply List.map_eq_map_iff.mpr
  intro i _
  apply List.map_eq_map_iff.mpr
  intro j _
  rw [ngCell, ngCell]
  by_cases h1 : getCell board i j = 1
  · rw [if_pos h1, if_pos h1]
    by_cases h2 : total_live board i j ∈ survival_rules
    · rw [if_pos h2, if_pos ((hsm _).mp h2)]
    · rw [if_neg h2, if_neg (fun h => h2 ((hsm _).mpr h))]
  · rw [if_neg h1, if_neg h1]
    by_cases h2 : total_live board i j ∈ birth_rules
    · rw [if_pos h2, if_pos ((hbm _).mp h2)]
    · rw [if_neg h2, if_neg (fun h => h2 ((hbm _).mpr h))]

theorem C10_witness :
    (([2, 3] : List Int).toFinset = ([3, 2, 2] : List Int).toFinset ∧
     ([3] : List Int).toFinset = ([3, 3] : List Int).toFinset) ∧
    next_generation [[1, 1], [0, 1]] [2, 3] [3] =
      next_generation [[1, 1], [0, 1]] [3, 2, 2] [3, 3] :=
  ⟨⟨by decide, by decide⟩,
    C10_rules_membership_only [[1, 1], [0, 1]] [2, 3] [3, 2, 2] [3] [3, 3]
      (by decide) (by decide)⟩
/-- Every cell `next_generation` writes is the literal 0 or 1. -/
theorem next_generation_binary (board : List (List Int))
    (survival_rules birth_rules : List Int) :
    IsBinaryBoard (next_generation board survival_rules birth_rules) := by
  rw [next_generation_eq_map]
  intro row hrow
  obtain ⟨i, hi, rfl⟩ := List.mem_map.mp hrow
  intro x hx
  obtain ⟨j, hj, rfl⟩ := List.mem_map.mp hx
  rw [ngCell]
  by_cases h1 : getCell board i j = 1
  · by_cases h2 : total_live board i j ∈ survival_rules
    · simp [h1, h2]
    · simp [h1, h2]
  · by_cases h2 : total_live board i j ∈ birth_rules
    · simp [h1, h2]
    · simp [h1, h2]

/-- On a 0/1 row, the sum of the entries is the number of 1-entries. -/
theorem sum_eq_count_ones (row : List Int) (h : ∀ x ∈ row, x = 0 ∨ x = 1) :
    row.sum = (row.count 1 : Int) := by
  induction row with
  | nil => simp
  | cons x xs ih =>
    rw [List.sum_cons,
      ih (fun y hy => h y (List.mem_cons_of_mem _ hy))]
    rcases h x (List.mem_cons_self x xs) with h0 | h1
    · subst h0
      simp [List.count_cons]
    · subst h1
      simp [List.count_cons]
      ring

/-- On a binary board, `int(np.sum(board))` is the number of 1-cells. -/
theorem boardSum_eq_countOnes (b : List (List Int)) :
    IsBinaryBoard b → boardSum b = (countOnes b : Int) := by
  induction b with
  | nil =>
    intro _
    rfl
  | cons row rest ih =>
    intro hbin
    have h1 : boardSum (row :: rest) = row.sum + boardSum rest := by
      rw [boardSum, boardSum, List.map_cons, List.sum_cons]
    have h2 : countOnes (row :: rest) = row.count 1 + countOnes rest := by
      rw [countOnes, countOnes, List.map_cons, List.sum_cons]
    rw [h1, h2, sum_eq_count_ones row (hbin row (List.mem_cons_self _ _)),
      ih (fun r hr => hbin r (List.mem_cons_of_mem _ hr))]
    push_cast
    ring

/-- **C8**: in every record produced by the run loop, the recorded
`live_cells_count` equals the number of 1-cells of the board recorded in
that same record. -/
theorem C8_live_cells_count_matches (num_steps : Nat)
    (initial_board : List (List Int)) (survival_rules birth_rules : List Int)
    (hbin : IsBinaryBoard initial_board) :
    ∀ r ∈ simulateTrace num_steps initial_board survival_rules birth_rules,
      r.live_cells_count = (countOnes r.board_state : Int) := by
  rw [simulateTrace]
  suffices h : ∀ k step board, IsBinaryBoard board →
      ∀ r ∈ simLoop survival_rules birth_rules k step board,
        r.live_cells_count = (countOnes r.board_state : Int) by
    exact h num_steps 0 initial_board hbin
  intro k
  induction k with
  | zero =>
    intro step board _ r hr
    simp [simLoop] at hr
  | succ k' ih =>
    intro step board hb r hr
    rw [simLoop] at hr
    rcases List.mem_cons.mp hr with h | h
    · subst h
      exact boardSum_eq_countOnes board hb
    · exact ih (step + 1) _ (next_generation_binary board _ _) r h

theorem C8_witness :
    IsBinaryBoard [[1, 0], [0, 1]] ∧
    ∀ r ∈ simulateTrace 3 [[1, 0], [0, 1]] [2, 3] [3],
      r.live_cells_count = (countOnes r.board_state : Int) :=
  ⟨by decide,
    C8_live_cells_count_matches 3 [[1, 0], [0, 1]] [2, 3] [3] (by decide)⟩
example : parse_rules ['2', ',', '3'] = some [2, 3] := by decide
example : parse_rules [] = some [] := by decide
example : parse_rules ['a'] = some [] := by decide
example : parse_rules ['2', 'a', '3'] = some [23] := by decide

theorem splitOnComma_ne_nil (l : List Char) : splitOnComma l ≠ [] := by
  cases l with
  | nil => simp [splitOnComma]
  | cons c rest => by_cases h : c = ',' <;> simp [splitOnComma, h]

/-- Every character of every piece of a split came from the input and is not
a comma. -/
theorem mem_splitOnComma (l : List Char) :
    ∀ piece ∈ splitOnComma l, ∀ c ∈ piece, c ∈ l ∧ c ≠ ',' := by
  induction l with
  | nil =>
    intro piece hp c hc
    simp [splitOnComma] at hp
    subst hp
    simp at hc
  | cons x rest ih =>
    intro piece hp c hc
    rw [splitOnComma] at hp
    by_cases hx : x = ','
    · rw [if_pos hx] at hp
      rcases List.mem_cons.mp hp with h | h
      · subst h
        simp at hc
      · obtain ⟨hmem, hne⟩ := ih piece h c hc
        exact ⟨List.mem_cons_of_mem _ hmem, hne⟩
    · rw [if_neg hx] at hp
      rcases List.mem_cons.mp hp with h | h
      · subst h
        rcases List.mem_cons.mp hc with h' | h'
        · subst h'
          exact ⟨List.mem_cons_self _ _, hx⟩
        · have hhead : (splitOnComma rest).headD [] ∈ splitOnComma rest := by
            cases hsp : splitOnComma rest with
            | nil => exact absurd hsp (splitOnComma_ne_nil rest)
            | cons p ps => simp
          obtain ⟨hmem, hne⟩ := ih _ hhead c h'
          exact ⟨List.mem_cons_of_mem _ hmem, hne⟩
      · have hpiece : piece ∈ splitOnComma rest := List.mem_of_mem_tail h
        obtain ⟨hmem, hne⟩ := ih piece hpiece c hc
        exact ⟨List.mem_cons_of_mem _ hmem, hne⟩

theorem mem_stripChars (l : List Char) (c : Char) (h : c ∈ stripChars l) :
    c ∈ l := by
  rw [stripChars, List.mem_reverse] at h
  have h1 : c ∈ (l.dropWhile Char.isWhitespace).reverse :=
    (List.dropWhile_sublist _).subset h
  rw [List.mem_reverse] at h1
  exact (List.dropWhile_sublist _).subset h1

theorem parsePieces_isSome (ps : List (List Char))
    (h : ∀ p ∈ ps, (pieceToInt p).isSome) : (parsePieces ps).isSome := by
  induction ps with
  | nil => rfl
  | cons p rest ih =>
    rw [parsePieces]
    have hp := h p (List.mem_cons_self _ _)
    have hrest := ih (fun q hq => h q (List.mem_cons_of_mem _ hq))
    cases hcp : pieceToInt p with
    | none => rw [hcp] at hp; simp at hp
    | some v =>
      cases hcr : parsePieces rest with
      | none => rw [hcr] at hrest; simp at hrest
      | some vs => rfl

/-- After cleaning, every stripped nonempty piece is all digits, so `int`
never raises: `parse_rules` cannot return `None`. -/
theorem parse_rules_isSome (rules_str : List Char) :
    (parse_rules rules_str).isSome := by
  rw [parse_rules]
  by_cases hnil : rules_str = []
  · rw [if_pos hnil]
    rfl
  · rw [if_neg hnil]
    apply parsePieces_isSome
    intro p hp
    rw [List.mem_filter] at hp
    obtain ⟨hmem, hne⟩ := hp
    obtain ⟨q, hq, rfl⟩ := List.mem_map.mp hmem
    have hdigits : (stripChars q).all Char.isDigit := by
      rw [List.all_eq_true]
      intro c hc
      have hcq : c ∈ q := mem_stripChars q c hc
      obtain ⟨hcl, hcomma⟩ := mem_splitOnComma (cleanRuleChars rules_str) q hq c hcq
      rw [cleanRuleChars, List.mem_filter] at hcl
      have hor := hcl.2
      rw [Bool.or_eq_true] at hor
      rcases hor with hd | hcm
      · exact hd
      · exact absurd (by simpa using hcm) hcomma
    have hnonempty : stripChars q ≠ [] := by
      intro hempty
      rw [hempty] at hne
      simp at hne
    rw [pieceToInt, if_pos ⟨hnonempty, hdigits⟩]
    rfl

/-! ## Claim C2 -/

/-- **C2, counterexample**: the claim says a rule string containing
non-numeric characters makes `parse_rules` return `None` and stops the
submission; on the string `"2a,3"` the code instead strips the `'a'`, parses
`[2, 3]`, and the run request is sent. -/
theorem C2_counterexample :
    parse_rules ['2', 'a', ',', '3'] = some [2, 3] ∧
    submissionSendsRun ['2', 'a', ',', '3'] ['3'] = true := by decide

/-- **C2, amended**: `parse_rules` deletes non-numeric characters instead of
rejecting them; it never returns `None`, so the form submission never takes
the error path, and the run request is always sent. -/
theorem C2_amended_sanitizes_never_rejects
    (survival_str birth_str : List Char) :
    parse_rules survival_str ≠ none ∧
    submissionSendsRun survival_str birth_str = true := by
  constructor
  · exact Option.isSome_iff_ne_none.mp (parse_rules_isSome survival_str)
  · rw [submissionSendsRun, parse_rules_isSome survival_str,
      parse_rules_isSome birth_str]
    rfl
